import Mathlib

/-!
Verification of the edge-categorization utility of
`src/angrmanagement/utils/cfg.py` (`_get_branch_instr` and
`categorize_edges`), via a shallow embedding.

Embedding notes.
* Python objects are modelled by values; `Node.nid` models object
  identity, so two distinct `Node` objects with equal addresses are two
  values differing in `nid`.  Grouping `edges_by_node[edge.src]` is
  grouping by the full `Node` value.
* `categorize_edges` mutates each edge's `sort` in place; each edge
  belongs to exactly one group (the group of its `src`), and inside a
  group of size 1 or 2 each positional element receives at most one
  assignment, so the loop is equivalent to a per-position map over the
  indexed edge list.  `classifyAt edges (i, e)` is the final value of
  the edge object sitting at position `i` of the input list.
* The `EdgeSort` enumeration lives in `angrmanagement/utils/edge.py`,
  which is not part of this fragment; only the three members the core
  assigns are modelled, with `Option` supplying the unclassified
  default.
* Logging (`l.warning` / `l.error`) is modelled by returning the list
  of emitted log levels; exceptions never escape (`try/except KeyError`
  is modelled by the total association-list lookup).
-/

/-- A decoded instruction, as stored in the disassembly's instruction
index. Its contents are never inspected by this core. -/
structure Instruction where
  addr : Nat
  deriving DecidableEq, Repr

/-- The Disassembly analysis instance. The core reads only
`disassembly['instructions']`, a mapping from instruction address to
decoded instruction, modelled as an association list. -/
structure Disassembly where
  instructions : List (Nat × Instruction)
  deriving DecidableEq, Repr

/-- A basic-block node. `nid` models Python object identity; `addr` and
`size` are the starting address and byte size; `out_branches` models the
key list of `node.out_branches` (a mapping from instruction address to
branch metadata, of which this core only ever reads the keys). -/
structure Node where
  nid : Nat
  addr : Nat
  size : Nat
  out_branches : List Nat
  deriving DecidableEq, Repr

/-- The members of the `EdgeSort` enumeration that this core assigns
(`edge.py` is outside the fragment; the spec lists these three plus an
implicit unclassified default, modelled by `Option.none`). -/
inductive EdgeSort where
  | BACK_EDGE
  | TRUE_BRANCH
  | FALSE_BRANCH
  deriving DecidableEq, Repr

/-- A CFG edge: `src`, `dst` node references and the mutable `sort`
field (`none` = unclassified). -/
structure Edge where
  src : Node
  dst : Node
  sort : Option EdgeSort := none
  deriving DecidableEq, Repr

/-- `edge.sort = s`, the single mutation the core performs. -/
def setSort (e : Edge) (s : EdgeSort) : Edge := { e with sort := some s }

/-- Log levels emitted through the module logger `l`. -/
inductive LogLevel where
  | warning
  | error
  deriving DecidableEq, Repr

/-- `_get_branch_instr(disassembly, node)`: returns the list of emitted
log levels together with the optional instruction.  The warning fires
when more than one out-branch is recorded; an empty `out_branches` or a
first key missing from the instruction index is logged as an error and
yields `none`; otherwise the instruction at the first key is returned. -/
def _get_branch_instr (disassembly : Disassembly) (node : Node) :
    List LogLevel × Option Instruction :=
  let logs := if node.out_branches.length > 1 then [LogLevel.warning] else []
  match node.out_branches with
  | [] => (logs ++ [LogLevel.error], none)
  | ins_addr :: _ =>
    match disassembly.instructions.lookup ins_addr with
    | none => (logs ++ [LogLevel.error], none)
    | some instr => (logs, some instr)

/-- The group `edges_by_node[src]`: the edges of the input whose source
is `src`, each paired with its position in the input list (positions
model the distinct edge objects of the Python list). -/
def outGroup (edges : List Edge) (src : Node) : List (Nat × Edge) :=
  edges.enum.filter fun q => q.2.src == src

/-- The body of the classification loop of `categorize_edges`, acting on
the edge object at position `i` of the input: a group of size 1 applies
the back-edge rule, a group of size 2 `[a, b]` applies the
fallthrough/true/false rule (position `a.1` plays `edge_a`, the other
position plays `edge_b`), and any other group size leaves the edge
untouched. -/
def classifyAt (edges : List Edge) : Nat × Edge → Edge
  | (i, e) =>
    match outGroup edges e.src with
    | [_] =>
      -- is it a back edge?
      if e.src.addr ≥ e.dst.addr then setSort e EdgeSort.BACK_EDGE else e
    | [a, b] =>
      -- determine which branch is the false branch
      let fallthrough := e.src.addr + e.src.size
      if a.2.dst.addr = fallthrough ∧ b.2.dst.addr ≠ fallthrough then
        if i = a.1 then setSort e EdgeSort.FALSE_BRANCH
        else setSort e EdgeSort.TRUE_BRANCH
      else if a.2.dst.addr ≠ fallthrough ∧ b.2.dst.addr = fallthrough then
        if i = a.1 then setSort e EdgeSort.TRUE_BRANCH
        else setSort e EdgeSort.FALSE_BRANCH
      else
        -- huh, there are either two fall-throughs or no fall-throughs
        e
    | _ => e

/-- `categorize_edges(disassembly, edges)`: the final state of the edge
list after the classification pass.  The `disassembly` argument is part
of the signature but unused by the current rule set (the
`_get_branch_instr` call is commented out in the source). -/
def categorize_edges (disassembly : Disassembly) (edges : List Edge) :
    List Edge :=
  edges.enum.map (classifyAt edges)

/-- Value-level characterization of the classification of a single edge:
the result depends only on the edge's own value and on the values of the
edges sharing its source.  Proven equivalent to `classifyAt` at every
position (`categorize_getElem?`). -/
def classifySingle (edges : List Edge) (e : Edge) : Edge :=
  match edges.filter (fun x => x.src == e.src) with
  | [_] =>
    if e.src.addr ≥ e.dst.addr then setSort e EdgeSort.BACK_EDGE else e
  | [a, b] =>
    let fallthrough := e.src.addr + e.src.size
    if (a.dst.addr = fallthrough ∧ b.dst.addr ≠ fallthrough) ∨
       (a.dst.addr ≠ fallthrough ∧ b.dst.addr = fallthrough) then
      if e.dst.addr = fallthrough then setSort e EdgeSort.FALSE_BRANCH
      else setSort e EdgeSort.TRUE_BRANCH
    else e
  | _ => e

/-! ### Toolkit lemmas -/

theorem length_categorize (d : Disassembly) (edges : List Edge) :
    (categorize_edges d edges).length = edges.length := by
  simp [categorize_edges]

theorem setSort_src (e : Edge) (s : EdgeSort) : (setSort e s).src = e.src := rfl

theorem setSort_dst (e : Edge) (s : EdgeSort) : (setSort e s).dst = e.dst := rfl

theorem setSort_setSort (e : Edge) (s t : EdgeSort) :
    setSort (setSort e s) t = setSort e t := rfl

theorem outGroup_map_snd (edges : List Edge) (src : Node) :
    (outGroup edges src).map Prod.snd = edges.filter (fun x => x.src == src) := by
  have h := List.filter_map (p := fun x : Edge => x.src == src) Prod.snd edges.enum
  rw [List.enum_map_snd] at h
  simp only [Function.comp_def] at h
  simp only [outGroup]
  exact h.symm

theorem mem_outGroup (edges : List Edge) (src : Node) (i : Nat) (x : Edge)
    (h : (i, x) ∈ outGroup edges src) : edges[i]? = some x ∧ x.src = src := by
  rw [outGroup, List.mem_filter, List.mk_mem_enum_iff_getElem?] at h
  simpa using h

theorem outGroup_fst_nodup (edges : List Edge) (src : Node) :
    ((outGroup edges src).map Prod.fst).Nodup := by
  have hsub : List.Sublist (outGroup edges src) edges.enum := List.filter_sublist _
  exact List.Nodup.sublist (hsub.map Prod.fst) (List.nodup_enum_map_fst edges)

theorem classifyAt_eq (edges : List Edge) (i : Nat) (e : Edge)
    (h : edges[i]? = some e) :
    classifyAt edges (i, e) = classifySingle edges e := by
  have hmem : (i, e) ∈ outGroup edges e.src := by
    rw [outGroup, List.mem_filter, List.mk_mem_enum_iff_getElem?]
    exact ⟨h, by simp⟩
  have hnd := outGroup_fst_nodup edges e.src
  have hv := (outGroup_map_snd edges e.src).symm
  simp only [classifyAt, classifySingle]
  rcases hG : outGroup edges e.src with _ | ⟨a, _ | ⟨b, _ | ⟨c, tl⟩⟩⟩
  · rw [hG] at hmem; simp at hmem
  · -- group of size one
    rw [hG] at hmem hv
    simp only [List.mem_singleton] at hmem
    rw [hv]
    simp only [List.map_cons, List.map_nil]
  · -- group of size two
    rw [hG] at hmem hnd hv
    rw [hv]
    simp only [List.map_cons, List.map_nil, List.mem_cons, List.not_mem_nil,
      or_false, List.mem_singleton] at hmem
    simp only [List.map_cons, List.map_nil, List.nodup_cons, List.mem_singleton,
      List.not_mem_nil, not_false_iff, and_true, List.mem_cons, or_false] at hnd
    rcases hmem with hma | hmb
    · subst hma
      by_cases hA : e.dst.addr = e.src.addr + e.src.size <;>
        by_cases hB : b.2.dst.addr = e.src.addr + e.src.size <;>
          simp [hA, hB]
    · subst hmb
      have hne : ¬ i = a.1 := fun hc => hnd.1 hc.symm
      by_cases hA : a.2.dst.addr = e.src.addr + e.src.size <;>
        by_cases hB : e.dst.addr = e.src.addr + e.src.size <;>
          simp [hA, hB, hne]
  · -- group of size three or more
    rw [hG] at hv
    rw [hv]
    rfl

theorem categorize_getElem? (d : Disassembly) (edges : List Edge) (i : Nat)
    (e : Edge) (h : edges[i]? = some e) :
    (categorize_edges d edges)[i]? = some (classifySingle edges e) := by
  rw [categorize_edges, List.getElem?_map, List.getElem?_enum, h]
  simp only [Option.map_some']
  exact congrArg some (classifyAt_eq edges i e h)

theorem classifySingle_src (edges : List Edge) (e : Edge) :
    (classifySingle edges e).src = e.src := by
  rw [classifySingle]
  split
  · split <;> rfl
  · dsimp only
    split
    · split <;> rfl
    · rfl
  · rfl

theorem classifySingle_dst (edges : List Edge) (e : Edge) :
    (classifySingle edges e).dst = e.dst := by
  rw [classifySingle]
  split
  · split <;> rfl
  · dsimp only
    split
    · split <;> rfl
    · rfl
  · rfl

/-- The pass preserves every edge's `src` and `dst` references (it only
ever writes `sort`). -/
theorem categorize_map_src_dst (d : Disassembly) (edges : List Edge) :
    (categorize_edges d edges).map (fun x => (x.src, x.dst)) =
      edges.map (fun x => (x.src, x.dst)) := by
  apply List.ext_getElem?
  intro n
  rw [List.getElem?_map, List.getElem?_map]
  cases h : edges[n]? with
  | none =>
    have hn : (categorize_edges d edges)[n]? = none := by
      rw [List.getElem?_eq_none_iff] at h ⊢
      rw [length_categorize]; exact h
    rw [hn]
  | some e =>
    rw [categorize_getElem? d edges n e h]
    simp [classifySingle_src, classifySingle_dst]

theorem filter_src_map_eq (edges edges' : List Edge) (s : Node)
    (h : edges'.map (fun x => (x.src, x.dst)) = edges.map (fun x => (x.src, x.dst))) :
    (edges'.filter (fun x => x.src == s)).map (fun x => (x.src, x.dst)) =
      (edges.filter (fun x => x.src == s)).map (fun x => (x.src, x.dst)) := by
  have h1 := List.filter_map (p := fun r : Node × Node => r.1 == s)
    (fun x : Edge => (x.src, x.dst)) edges'
  have h2 := List.filter_map (p := fun r : Node × Node => r.1 == s)
    (fun x : Edge => (x.src, x.dst)) edges
  simp only [Function.comp_def] at h1 h2
  rw [← h1, ← h2, h]

theorem perm_pair_cases {α : Type} {l : List α} {x y : α} (h : l.Perm [x, y]) :
    l = [x, y] ∨ l = [y, x] := by
  have hlen := h.length_eq
  rcases l with _ | ⟨u, _ | ⟨v, _ | ⟨w, tl⟩⟩⟩ <;> simp at hlen
  have hu : u ∈ [x, y] := h.mem_iff.mp (by simp)
  rcases List.mem_pair.mp hu with hux | huy
  · subst hux
    have hv : v = y := by
      have := List.perm_singleton.mp h.cons_inv
      simpa using this
    subst hv
    exact Or.inl rfl
  · have h2 : List.Perm [u, v] [y, x] := h.trans (List.Perm.swap y x [])
    rw [← huy] at h2
    have hvx : v = x := by simpa using List.perm_singleton.mp h2.cons_inv
    right
    rw [huy, hvx]

/-- Classification of an edge value is invariant under permutation of
the edge collection: only group membership matters. -/
theorem classifySingle_perm (edges edges' : List Edge)
    (h : edges.Perm edges') (e : Edge) :
    classifySingle edges' e = classifySingle edges e := by
  have hp : (edges'.filter (fun x => x.src == e.src)).Perm
      (edges.filter (fun x => x.src == e.src)) := (h.symm).filter _
  rw [classifySingle, classifySingle]
  rcases hG : edges.filter (fun x => x.src == e.src) with _ | ⟨x, _ | ⟨y, _ | ⟨z, tl⟩⟩⟩
  · rw [hG] at hp
    rw [hG, hp.eq_nil]
  · rw [hG] at hp
    rw [hG, List.perm_singleton.mp hp]
  · rw [hG] at hp
    rcases perm_pair_cases hp with h2 | h2 <;> rw [hG, h2]
    by_cases hx : x.dst.addr = e.src.addr + e.src.size <;>
      by_cases hy : y.dst.addr = e.src.addr + e.src.size <;>
        simp [hx, hy]
  · rw [hG] at hp
    have hlen := hp.length_eq
    rcases hF : edges'.filter (fun x => x.src == e.src) with _ | ⟨x', _ | ⟨y', _ | ⟨z', tl'⟩⟩⟩
    · rw [hF] at hlen; simp at hlen
    · rw [hF] at hlen; simp at hlen
    · rw [hF] at hlen; simp at hlen
    · rw [hG, hF]

/-- Re-classifying an already-classified edge is a no-op, provided the
ambient collection kept every edge's `src`/`dst` (only `sort` may have
changed): the rules never read `sort`. -/
theorem classifySingle_stable (edges edges' : List Edge)
    (h : edges'.map (fun x => (x.src, x.dst)) = edges.map (fun x => (x.src, x.dst)))
    (e : Edge) :
    classifySingle edges' (classifySingle edges e) = classifySingle edges e := by
  have hf := filter_src_map_eq edges edges' e.src h
  conv_lhs => rw [classifySingle]
  simp only [classifySingle_src]
  rcases hG : edges.filter (fun x => x.src == e.src) with _ | ⟨x, _ | ⟨y, _ | ⟨z, tl⟩⟩⟩
  · rw [hG] at hf
    simp only [List.map_nil, List.map_eq_nil_iff] at hf
    have hE : classifySingle edges e = e := by rw [classifySingle, hG]
    rw [hf, hE]
  · rw [hG] at hf
    rcases hF : edges'.filter (fun x => x.src == e.src) with _ | ⟨x', _ | ⟨y', tl'⟩⟩
    · rw [hF] at hf; simp at hf
    · by_cases hc : e.src.addr ≥ e.dst.addr
      · have hE : classifySingle edges e = setSort e EdgeSort.BACK_EDGE := by
          rw [classifySingle, hG]; simp [hc]
        rw [hF, hE]
        simp [setSort, hc]
      · have hE : classifySingle edges e = e := by
          rw [classifySingle, hG]; simp [hc]
        rw [hF, hE]
        simp [hc]
    · rw [hF] at hf; simp at hf
  · rw [hG] at hf
    rcases hF : edges'.filter (fun x => x.src == e.src) with _ | ⟨x', _ | ⟨y', _ | ⟨z', tl'⟩⟩⟩
    · rw [hF] at hf; simp at hf
    · rw [hF] at hf; simp at hf
    · rw [hF] at hf
      simp only [List.map_cons, List.map_nil, List.cons.injEq, and_true,
        Prod.mk.injEq] at hf
      obtain ⟨⟨hx1, hx2⟩, hy1, hy2⟩ := hf
      have hx : x'.dst.addr = x.dst.addr := by rw [hx2]
      have hy : y'.dst.addr = y.dst.addr := by rw [hy2]
      by_cases hA : x.dst.addr = e.src.addr + e.src.size <;>
        by_cases hB : y.dst.addr = e.src.addr + e.src.size
      · have hE : classifySingle edges e = e := by
          rw [classifySingle, hG]; simp [hA, hB]
        rw [hF, hE]
        simp [hA, hB, hx, hy]
      · by_cases he : e.dst.addr = e.src.addr + e.src.size
        · have hE : classifySingle edges e = setSort e EdgeSort.FALSE_BRANCH := by
            rw [classifySingle, hG]; simp [hA, hB, he]
          rw [hF, hE]
          simp [setSort, hA, hB, hx, hy, he]
        · have hE : classifySingle edges e = setSort e EdgeSort.TRUE_BRANCH := by
            rw [classifySingle, hG]; simp [hA, hB, he]
          rw [hF, hE]
          simp [setSort, hA, hB, hx, hy, he]
      · by_cases he : e.dst.addr = e.src.addr + e.src.size
        · have hE : classifySingle edges e = setSort e EdgeSort.FALSE_BRANCH := by
            rw [classifySingle, hG]; simp [hA, hB, he]
          rw [hF, hE]
          simp [setSort, hA, hB, hx, hy, he]
        · have hE : classifySingle edges e = setSort e EdgeSort.TRUE_BRANCH := by
            rw [classifySingle, hG]; simp [hA, hB, he]
          rw [hF, hE]
          simp [setSort, hA, hB, hx, hy, he]
      · have hE : classifySingle edges e = e := by
          rw [classifySingle, hG]; simp [hA, hB]
        rw [hF, hE]
        simp [hA, hB, hx, hy]
    · rw [hF] at hf; simp at hf
  · rw [hG] at hf
    have hlen := congrArg List.length hf
    simp only [List.length_map] at hlen
    have hE : classifySingle edges e = e := by rw [classifySingle, hG]
    rcases hF : edges'.filter (fun x => x.src == e.src) with _ | ⟨x', _ | ⟨y', _ | ⟨z', tl'⟩⟩⟩
    · rw [hF] at hlen; simp at hlen
    · rw [hF] at hlen; simp at hlen
    · rw [hF] at hlen; simp at hlen
    · rw [hF, hE]

theorem mem_outGroup_pair (edges : List Edge) (src : Node) (p : Nat × Edge)
    (h : p ∈ outGroup edges src) : edges[p.1]? = some p.2 ∧ p.2.src = src := by
  rcases p with ⟨i, x⟩
  exact mem_outGroup edges src i x h

theorem outGroup_length (edges : List Edge) (src : Node) :
    (outGroup edges src).length =
      (edges.filter (fun x => x.src == src)).length := by
  rw [← outGroup_map_snd, List.length_map]

/-- Full behaviour of the pass on a group of exactly two outgoing
edges. -/
theorem two_succ_spec (d : Disassembly) (edges : List Edge) (src : Node)
    (a b : Nat × Edge) (hg : outGroup edges src = [a, b]) :
    (a.2.dst.addr = src.addr + src.size ∧ b.2.dst.addr ≠ src.addr + src.size →
      (categorize_edges d edges)[a.1]? = some (setSort a.2 EdgeSort.FALSE_BRANCH) ∧
      (categorize_edges d edges)[b.1]? = some (setSort b.2 EdgeSort.TRUE_BRANCH)) ∧
    (a.2.dst.addr ≠ src.addr + src.size ∧ b.2.dst.addr = src.addr + src.size →
      (categorize_edges d edges)[a.1]? = some (setSort a.2 EdgeSort.TRUE_BRANCH) ∧
      (categorize_edges d edges)[b.1]? = some (setSort b.2 EdgeSort.FALSE_BRANCH)) ∧
    ((a.2.dst.addr = src.addr + src.size ↔ b.2.dst.addr = src.addr + src.size) →
      (categorize_edges d edges)[a.1]? = some a.2 ∧
      (categorize_edges d edges)[b.1]? = some b.2) := by
  have hamem : a ∈ outGroup edges src := by rw [hg]; simp
  have hbmem : b ∈ outGroup edges src := by rw [hg]; simp
  obtain ⟨hga, hsa⟩ := mem_outGroup_pair edges src a hamem
  obtain ⟨hgb, hsb⟩ := mem_outGroup_pair edges src b hbmem
  have hva : edges.filter (fun x => x.src == a.2.src) = [a.2, b.2] := by
    rw [hsa, ← outGroup_map_snd, hg]; rfl
  have hvb : edges.filter (fun x => x.src == b.2.src) = [a.2, b.2] := by
    rw [hsb, ← outGroup_map_snd, hg]; rfl
  have hca := categorize_getElem? d edges a.1 a.2 hga
  have hcb := categorize_getElem? d edges b.1 b.2 hgb
  refine ⟨?_, ?_, ?_⟩
  · rintro ⟨h1, h2⟩
    constructor
    · rw [hca, classifySingle, hva]
      simp [hsa, h1, h2]
    · rw [hcb, classifySingle, hvb]
      simp [hsb, h1, h2]
  · rintro ⟨h1, h2⟩
    constructor
    · rw [hca, classifySingle, hva]
      simp [hsa, h1, h2]
    · rw [hcb, classifySingle, hvb]
      simp [hsb, h1, h2]
  · intro hiff
    by_cases h1 : a.2.dst.addr = src.addr + src.size
    · have h2 := hiff.mp h1
      constructor
      · rw [hca, classifySingle, hva]
        simp [hsa, h1, h2]
      · rw [hcb, classifySingle, hvb]
        simp [hsb, h1, h2]
    · have h2 : ¬ b.2.dst.addr = src.addr + src.size := fun hb => h1 (hiff.mpr hb)
      constructor
      · rw [hca, classifySingle, hva]
        simp [hsa, h1, h2]
      · rw [hcb, classifySingle, hvb]
        simp [hsb, h1, h2]

/-- Full behaviour of the pass on a group of exactly one outgoing
edge. -/
theorem single_succ_spec (d : Disassembly) (edges : List Edge) (src : Node)
    (a : Nat × Edge) (hg : outGroup edges src = [a]) :
    (a.2.dst.addr ≤ src.addr →
      (categorize_edges d edges)[a.1]? = some (setSort a.2 EdgeSort.BACK_EDGE)) ∧
    (¬ a.2.dst.addr ≤ src.addr →
      (categorize_edges d edges)[a.1]? = some a.2) := by
  have hamem : a ∈ outGroup edges src := by rw [hg]; simp
  obtain ⟨hga, hsa⟩ := mem_outGroup_pair edges src a hamem
  have hva : edges.filter (fun x => x.src == a.2.src) = [a.2] := by
    rw [hsa, ← outGroup_map_snd, hg]; rfl
  have hca := categorize_getElem? d edges a.1 a.2 hga
  constructor
  · intro h1
    rw [hca, classifySingle, hva]
    simp [hsa, ge_iff_le, h1]
  · intro h1
    rw [hca, classifySingle, hva]
    simp [hsa, ge_iff_le, h1]

/-- Behaviour of the pass on groups of any size other than 1 or 2: the
edge is untouched. -/
theorem other_size_spec (d : Disassembly) (edges : List Edge) (src : Node)
    (p : Nat × Edge) (hp : p ∈ outGroup edges src)
    (h1 : (outGroup edges src).length ≠ 1)
    (h2 : (outGroup edges src).length ≠ 2) :
    (categorize_edges d edges)[p.1]? = some p.2 := by
  obtain ⟨hgp, hsp⟩ := mem_outGroup_pair edges src p hp
  have hca := categorize_getElem? d edges p.1 p.2 hgp
  have hlen := outGroup_length edges src
  rw [hca, classifySingle]
  simp only [hsp]
  rcases hv : edges.filter (fun x => x.src == src) with _ | ⟨x, _ | ⟨y, _ | ⟨z, tl⟩⟩⟩
  · have : outGroup edges src = [] := by
      have hmap := outGroup_map_snd edges src
      rw [hv] at hmap
      exact List.map_eq_nil_iff.mp hmap
    rw [this] at hp
    simp at hp
  · rw [hv] at hlen
    simp at hlen
    exact absurd hlen h1
  · rw [hv] at hlen
    simp at hlen
    exact absurd hlen h2
  · rw [hv]

/-- Any sort the pass writes is forced by the size of the edge's group:
`BACK_EDGE` only in groups of one, `TRUE_BRANCH`/`FALSE_BRANCH` only in
groups of two; otherwise the edge value is returned unchanged. -/
theorem classifySingle_cases (edges : List Edge) (e : Edge) :
    classifySingle edges e = e ∨
    (classifySingle edges e = setSort e EdgeSort.BACK_EDGE ∧
      (edges.filter (fun x => x.src == e.src)).length = 1) ∨
    ((classifySingle edges e = setSort e EdgeSort.TRUE_BRANCH ∨
      classifySingle edges e = setSort e EdgeSort.FALSE_BRANCH) ∧
      (edges.filter (fun x => x.src == e.src)).length = 2) := by
  rcases hv : edges.filter (fun x => x.src == e.src) with _ | ⟨x, _ | ⟨y, _ | ⟨z, tl⟩⟩⟩
  · left
    rw [classifySingle, hv]
  · by_cases hc : e.src.addr ≥ e.dst.addr
    · right; left
      constructor
      · rw [classifySingle, hv]; simp [hc]
      · simp [hv]
    · left
      rw [classifySingle, hv]; simp [hc]
  · by_cases hcond : (x.dst.addr = e.src.addr + e.src.size ∧
        y.dst.addr ≠ e.src.addr + e.src.size) ∨
        (x.dst.addr ≠ e.src.addr + e.src.size ∧
          y.dst.addr = e.src.addr + e.src.size)
    · by_cases hft : e.dst.addr = e.src.addr + e.src.size
      · right; right
        exact ⟨Or.inr (by rw [classifySingle, hv]; simp [hcond, hft]), by simp [hv]⟩
      · right; right
        exact ⟨Or.inl (by rw [classifySingle, hv]; simp [hcond, hft]), by simp [hv]⟩
    · left
      rw [classifySingle, hv]; simp [hcond]
  · left
    rw [classifySingle, hv]

/-! ### Claim theorems -/

/-- C1: for a node with exactly two outgoing edges and
`fallthrough = src.addr + src.size`, if exactly one edge's `dst.addr`
equals `fallthrough`, the matching edge becomes `FALSE_BRANCH` and the
other `TRUE_BRANCH`; if zero or both match, both edges are left
unchanged. -/
theorem categorize_two_successors (d : Disassembly) (edges : List Edge)
    (src : Node) (a b : Nat × Edge) (hg : outGroup edges src = [a, b]) :
    (a.2.dst.addr = src.addr + src.size ∧ b.2.dst.addr ≠ src.addr + src.size →
      (categorize_edges d edges)[a.1]? = some (setSort a.2 EdgeSort.FALSE_BRANCH) ∧
      (categorize_edges d edges)[b.1]? = some (setSort b.2 EdgeSort.TRUE_BRANCH)) ∧
    (a.2.dst.addr ≠ src.addr + src.size ∧ b.2.dst.addr = src.addr + src.size →
      (categorize_edges d edges)[a.1]? = some (setSort a.2 EdgeSort.TRUE_BRANCH) ∧
      (categorize_edges d edges)[b.1]? = some (setSort b.2 EdgeSort.FALSE_BRANCH)) ∧
    ((a.2.dst.addr = src.addr + src.size ↔ b.2.dst.addr = src.addr + src.size) →
      (categorize_edges d edges)[a.1]? = some a.2 ∧
      (categorize_edges d edges)[b.1]? = some b.2) :=
  two_succ_spec d edges src a b hg

/-- C2: for a node with exactly one outgoing edge, the edge becomes
`BACK_EDGE` iff `dst.addr ≤ src.addr` (equality, a self-loop, counts);
otherwise it is left unchanged. -/
theorem categorize_single_successor (d : Disassembly) (edges : List Edge)
    (src : Node) (a : Nat × Edge) (hg : outGroup edges src = [a]) :
    (a.2.dst.addr ≤ src.addr →
      (categorize_edges d edges)[a.1]? = some (setSort a.2 EdgeSort.BACK_EDGE)) ∧
    (¬ a.2.dst.addr ≤ src.addr →
      (categorize_edges d edges)[a.1]? = some a.2) :=
  single_succ_spec d edges src a hg

/-- C3: for a node whose group of outgoing edges has size zero, three or
more, every edge of that group is left unchanged by the pass. -/
theorem categorize_other_sizes (d : Disassembly) (edges : List Edge)
    (src : Node) (p : Nat × Edge) (hp : p ∈ outGroup edges src)
    (h1 : (outGroup edges src).length ≠ 1)
    (h2 : (outGroup edges src).length ≠ 2) :
    (categorize_edges d edges)[p.1]? = some p.2 :=
  other_size_spec d edges src p hp h1 h2

/-- C4: the pass is total — it returns a well-defined result of the same
length for every input — and in the degenerate two-successor case
(neither or both edges matching the fallthrough address) it silently
leaves both edges unchanged. -/
theorem categorize_total_degenerate_silent (d : Disassembly)
    (edges : List Edge) :
    (categorize_edges d edges).length = edges.length ∧
    (∀ src a b, outGroup edges src = [a, b] →
      (a.2.dst.addr = src.addr + src.size ↔ b.2.dst.addr = src.addr + src.size) →
      (categorize_edges d edges)[a.1]? = some a.2 ∧
      (categorize_edges d edges)[b.1]? = some b.2) :=
  ⟨length_categorize d edges,
   fun src a b hg hiff => (two_succ_spec d edges src a b hg).2.2 hiff⟩

/-- C5: the pass is idempotent — running it a second time on its own
output (node data unchanged) reproduces the same edge list. -/
theorem categorize_idempotent (d : Disassembly) (edges : List Edge) :
    categorize_edges d (categorize_edges d edges) = categorize_edges d edges := by
  apply List.ext_getElem?
  intro n
  cases h : edges[n]? with
  | none =>
    have h1 : (categorize_edges d edges)[n]? = none := by
      rw [List.getElem?_eq_none_iff] at h ⊢
      rw [length_categorize]; exact h
    have h2 : (categorize_edges d (categorize_edges d edges))[n]? = none := by
      rw [List.getElem?_eq_none_iff] at h1 ⊢
      rw [length_categorize]; exact h1
    rw [h1, h2]
  | some e =>
    have h1 := categorize_getElem? d edges n e h
    have h2 := categorize_getElem? d (categorize_edges d edges) n
      (classifySingle edges e) h1
    rw [h1, h2,
      classifySingle_stable edges (categorize_edges d edges)
        (categorize_map_src_dst d edges) e]

/-- C6: order-independence — on any permutation of the edge list, every
edge occurrence receives exactly the classification its value receives
on the original list (group membership, not order, drives the rules). -/
theorem categorize_order_independent (d : Disassembly)
    (edges edges' : List Edge) (h : edges.Perm edges') :
    (∀ (i : Nat) (e : Edge), edges[i]? = some e →
      (categorize_edges d edges)[i]? = some (classifySingle edges e)) ∧
    (∀ (i : Nat) (e : Edge), edges'[i]? = some e →
      (categorize_edges d edges')[i]? = some (classifySingle edges e)) := by
  constructor
  · intro i e he
    exact categorize_getElem? d edges i e he
  · intro i e he
    rw [categorize_getElem? d edges' i e he, classifySingle_perm edges edges' h e]

/-- C7: noninterference of the disassembly context — the classification
never reads the `disassembly` argument. -/
theorem categorize_disassembly_noninterference (d1 d2 : Disassembly)
    (edges : List Edge) :
    categorize_edges d1 edges = categorize_edges d2 edges := rfl

/-- C8: the diagnostic helper yields `none` iff the node has no recorded
out-branches or the first out-branch address is absent from the
instruction index; a warning is reported iff more than one out-branch is
recorded (only the first is used); on success it returns the instruction
at the first out-branch address.  The function is total: no exception
reaches the caller. -/
theorem get_branch_instr_spec (d : Disassembly) (n : Node) :
    ((_get_branch_instr d n).2 = none ↔
      n.out_branches = [] ∨
        ∃ a tl, n.out_branches = a :: tl ∧ d.instructions.lookup a = none) ∧
    (LogLevel.warning ∈ (_get_branch_instr d n).1 ↔ 1 < n.out_branches.length) ∧
    (∀ instr, (_get_branch_instr d n).2 = some instr →
      ∃ a tl, n.out_branches = a :: tl ∧
        d.instructions.lookup a = some instr) := by
  rcases hob : n.out_branches with _ | ⟨a, tl⟩
  · refine ⟨?_, ?_, ?_⟩ <;> simp [_get_branch_instr, hob]
  · cases hl : d.instructions.lookup a with
    | none =>
      refine ⟨⟨fun _ => Or.inr ⟨a, tl, rfl, hl⟩, fun _ => ?_⟩, ?_, ?_⟩
      · simp [_get_branch_instr, hob, hl]
      · rcases tl with _ | ⟨b, tl2⟩ <;>
          simp [_get_branch_instr, hob, hl, Nat.lt_add_of_pos_left]
      · intro instr hi
        simp [_get_branch_instr, hob, hl] at hi
    | some instr0 =>
      have h2 : (_get_branch_instr d n).2 = some instr0 := by
        simp [_get_branch_instr, hob, hl]
      refine ⟨⟨fun hc => ?_, fun hc => ?_⟩, ?_, ?_⟩
      · rw [h2] at hc; exact absurd hc (by simp)
      · rcases hc with hc | ⟨a2, tl2, he, hlk⟩
        · exact absurd hc (by simp)
        · obtain ⟨rfl, rfl⟩ : a2 = a ∧ tl2 = tl := by
            constructor <;> [exact (List.cons.inj he).1.symm;
              exact (List.cons.inj he).2.symm]
          rw [hl] at hlk
          exact absurd hlk (by simp)
      · rcases tl with _ | ⟨b, tl2⟩ <;>
          simp [_get_branch_instr, hob, hl, Nat.lt_add_of_pos_left]
      · intro instr hi
        rw [h2] at hi
        refine ⟨a, tl, rfl, ?_⟩
        rw [hl, Option.some.inj hi]

/-- C9: frame condition — the pass only ever writes `sort`; every edge's
`src` and `dst` node references (hence every node's `addr` and `size`)
are unchanged. -/
theorem categorize_frame_condition (d : Disassembly) (edges : List Edge) :
    (categorize_edges d edges).map (fun x => (x.src, x.dst)) =
      edges.map (fun x => (x.src, x.dst)) :=
  categorize_map_src_dst d edges

/-- C10: every sort the pass writes is determined by its group's size —
`BACK_EDGE` only in groups of one, `TRUE_BRANCH`/`FALSE_BRANCH` only in
groups of two; in particular the taken edge of a two-successor
conditional is `TRUE_BRANCH` even when its target address is ≤ the
source address, never `BACK_EDGE`. -/
theorem categorize_sort_by_group_size (d : Disassembly) (edges : List Edge) :
    (∀ (i : Nat) (e e' : Edge), edges[i]? = some e →
      (categorize_edges d edges)[i]? = some e' →
      (e' = e ∨
       (e' = setSort e EdgeSort.BACK_EDGE ∧ (outGroup edges e.src).length = 1) ∨
       ((e' = setSort e EdgeSort.TRUE_BRANCH ∨
         e' = setSort e EdgeSort.FALSE_BRANCH) ∧
        (outGroup edges e.src).length = 2))) ∧
    (∀ src a b, outGroup edges src = [a, b] →
      a.2.dst.addr = src.addr + src.size →
      b.2.dst.addr ≠ src.addr + src.size →
      b.2.dst.addr ≤ src.addr →
      (categorize_edges d edges)[b.1]? = some (setSort b.2 EdgeSort.TRUE_BRANCH)) := by
  constructor
  · intro i e e' h h'
    have hc := categorize_getElem? d edges i e h
    rw [h'] at hc
    have he' : e' = classifySingle edges e := Option.some.inj hc
    rw [he', outGroup_length edges e.src]
    exact classifySingle_cases edges e
  · intro src a b hg h1 h2 h3
    exact ((two_succ_spec d edges src a b hg).1 ⟨h1, h2⟩).2

/-! ### Concrete witness data (spec §8 example scenarios) -/

def nodeA : Node := ⟨1, 0x1000, 4, []⟩

def nodeB : Node := ⟨2, 0x1004, 4, []⟩

def nodeC : Node := ⟨3, 0x2000, 4, []⟩

def nodeD : Node := ⟨4, 0x1008, 4, []⟩

def nodeE : Node := ⟨5, 0x2000, 4, []⟩

def nodeF : Node := ⟨6, 0x2004, 4, []⟩

def nodeW8 : Node := ⟨7, 0, 0, [7, 8]⟩

def disW : Disassembly := ⟨[(5, ⟨5⟩)]⟩

def edgesW1 : List Edge := [⟨nodeC, nodeA, none⟩]

def edgesW2 : List Edge := [⟨nodeA, nodeB, none⟩, ⟨nodeA, nodeC, none⟩]

def edgesW2r : List Edge := [⟨nodeA, nodeC, none⟩, ⟨nodeA, nodeB, none⟩]

def edgesW3 : List Edge :=
  [⟨nodeA, nodeB, none⟩, ⟨nodeA, nodeC, none⟩, ⟨nodeA, nodeD, none⟩]

def edgesW4 : List Edge := [⟨nodeA, nodeD, none⟩, ⟨nodeA, nodeC, none⟩]

def edgesW5 : List Edge := [⟨nodeE, nodeF, none⟩, ⟨nodeE, nodeA, none⟩]

/-- Witness for C1 at the spec's scenario 3: fallthrough edge becomes
`FALSE_BRANCH`, the other `TRUE_BRANCH`. -/
theorem categorize_two_successors_witness :
    (categorize_edges disW edgesW2)[0]? =
      some (setSort ⟨nodeA, nodeB, none⟩ EdgeSort.FALSE_BRANCH) ∧
    (categorize_edges disW edgesW2)[1]? =
      some (setSort ⟨nodeA, nodeC, none⟩ EdgeSort.TRUE_BRANCH) :=
  (categorize_two_successors disW edgesW2 nodeA (0, ⟨nodeA, nodeB, none⟩)
    (1, ⟨nodeA, nodeC, none⟩) (by decide)).1 (by decide)

/-- Witness for C2 at the spec's scenario 2: a single backward edge
becomes `BACK_EDGE`. -/
theorem categorize_single_successor_witness :
    (categorize_edges disW edgesW1)[0]? =
      some (setSort ⟨nodeC, nodeA, none⟩ EdgeSort.BACK_EDGE) :=
  (categorize_single_successor disW edgesW1 nodeC (0, ⟨nodeC, nodeA, none⟩)
    (by decide)).1 (by decide)

/-- Witness for C3 at the spec's scenario 5: a three-successor group is
left unclassified. -/
theorem categorize_other_sizes_witness :
    (categorize_edges disW edgesW3)[0]? = some ⟨nodeA, nodeB, none⟩ :=
  categorize_other_sizes disW edgesW3 nodeA (0, ⟨nodeA, nodeB, none⟩)
    (by decide) (by decide) (by decide)

/-- Witness for C4 at the spec's scenario 4: neither successor matches
the fallthrough address; both edges are silently left unchanged. -/
theorem categorize_total_degenerate_silent_witness :
    (categorize_edges disW edgesW4).length = edgesW4.length ∧
    (categorize_edges disW edgesW4)[0]? = some ⟨nodeA, nodeD, none⟩ ∧
    (categorize_edges disW edgesW4)[1]? = some ⟨nodeA, nodeC, none⟩ :=
  ⟨(categorize_total_degenerate_silent disW edgesW4).1,
   ((categorize_total_degenerate_silent disW edgesW4).2 nodeA
     (0, ⟨nodeA, nodeD, none⟩) (1, ⟨nodeA, nodeC, none⟩)
     (by decide) (by decide)).1,
   ((categorize_total_degenerate_silent disW edgesW4).2 nodeA
     (0, ⟨nodeA, nodeD, none⟩) (1, ⟨nodeA, nodeC, none⟩)
     (by decide) (by decide)).2⟩

/-- Witness for C6: on the reversed two-edge list, position 0 receives
exactly the classification its edge value receives on the original. -/
theorem categorize_order_independent_witness :
    (categorize_edges disW edgesW2r)[0]? =
      some (classifySingle edgesW2 ⟨nodeA, nodeC, none⟩) :=
  (categorize_order_independent disW edgesW2 edgesW2r (by decide)).2 0
    ⟨nodeA, nodeC, none⟩ (by decide)

/-- Witness for C8: two recorded out-branches whose first address is
missing from the index — a warning is logged and the result is absent. -/
theorem get_branch_instr_spec_witness :
    (_get_branch_instr disW nodeW8).2 = none ∧
    LogLevel.warning ∈ (_get_branch_instr disW nodeW8).1 :=
  ⟨(get_branch_instr_spec disW nodeW8).1.mpr
     (Or.inr ⟨7, [8], rfl, by decide⟩),
   (get_branch_instr_spec disW nodeW8).2.1.mpr (by decide)⟩

/-- Witness for C10: a conditional loop latch (taken edge pointing
backwards) is marked `TRUE_BRANCH`, not `BACK_EDGE`. -/
theorem categorize_sort_by_group_size_witness :
    (categorize_edges disW edgesW5)[1]? =
      some (setSort ⟨nodeE, nodeA, none⟩ EdgeSort.TRUE_BRANCH) :=
  (categorize_sort_by_group_size disW edgesW5).2 nodeE
    (0, ⟨nodeE, nodeF, none⟩) (1, ⟨nodeE, nodeA, none⟩)
    (by decide) (by decide) (by decide) (by decide)
